import Mathlib

/-!
# Verification of the RapidOCR recognition pipeline

A shallow embedding of the OCR post-processing pipeline of the `useRapidOCR`
hook: vocabulary loading, image normalization (`processImage`), and greedy CTC
decoding (`ctcDecode`).  Floating-point scores and pixel arithmetic are
modelled over `ℚ`; byte arrays are modelled as functions `ℕ → ℕ`.
-/

namespace RapidOCR

/-! ## CTC decoder: argmax step

The source scans each timestep's row with `maxVal = -Infinity, maxIdx = 0` and
replaces the best on a strict `>` comparison.  `none` models the `-Infinity`
initial value, which every finite score exceeds. -/

/-- The JS comparison `data[offset + i] > maxVal` where `maxVal : Option ℚ`
and `none` stands for the initial `-Infinity`. -/
def jsGt (best : Option ℚ) (v : ℚ) : Bool :=
  match best with
  | none => true
  | some b => decide (b < v)

/-- The argmax loop body of `ctcDecode`: walks the row keeping the current
best value, its index, and the index of the next element. -/
def argmaxAux : List ℚ → Option ℚ → ℕ → ℕ → ℕ
  | [], _, bestIdx, _ => bestIdx
  | v :: rest, best, bestIdx, i =>
    if jsGt best v then argmaxAux rest (some v) i (i + 1)
    else argmaxAux rest best bestIdx (i + 1)

/-- Argmax over one row of the score matrix, as in `ctcDecode`:
`maxVal = -Infinity`, `maxIdx = 0`, strict `>` left-to-right scan. -/
def argmax (row : List ℚ) : ℕ := argmaxAux row none 0 0

/-- The raw per-timestep index sequence `predIndices` of `ctcDecode`. -/
def rawIndices (scores : List (List ℚ)) : List ℕ := scores.map argmax

/-! ## CTC decoder: collapse and mapping -/

/-- The collapse loop of `ctcDecode`, carrying the previous raw index:
`if (i > 0 && predIndices[i] === predIndices[i-1]) continue;
 if (predIndices[i] !== 0) charIndices.push(predIndices[i]);` -/
def collapseAux : Option ℕ → List ℕ → List ℕ
  | _, [] => []
  | prev, x :: rest =>
    if some x = prev then collapseAux (some x) rest
    else if x ≠ 0 then x :: collapseAux (some x) rest
    else collapseAux (some x) rest

/-- The CTC collapse of `ctcDecode`: one left-to-right pass that drops an
index equal to its immediate predecessor and drops remaining zeros. -/
def ctcCollapse (pred : List ℕ) : List ℕ := collapseAux none pred

/-- The symbol-mapping step of `ctcDecode`:
`if (idx < 0 || idx >= charList.length) return ''; return charList[idx];`
The index is modelled over `ℤ` to keep the defensive negative-index check. -/
def mapIdx (charList : List String) (idx : ℤ) : String :=
  if idx < 0 ∨ (charList.length : ℤ) ≤ idx then ""
  else charList.getD idx.toNat ""

/-- Decoding from a raw index sequence: collapse, map each surviving index to
its symbol, concatenate. -/
def ctcDecodeIndices (charList : List String) (pred : List ℕ) : String :=
  String.join ((ctcCollapse pred).map (fun i => mapIdx charList (i : ℤ)))

/-- Full `ctcDecode`: argmax per timestep, then collapse and map. -/
def ctcDecode (charList : List String) (scores : List (List ℚ)) : String :=
  ctcDecodeIndices charList (rawIndices scores)

/-! ## Vocabulary loading

`useRapidOCR` fetches the dictionary text, splits it with
`text.split(/\r?\n/)`, and builds `['blank', ...lines, ' ']`. -/

/-- One step of JS `text.split(/\r?\n/)` over the character list: a line
break is `"\r\n"` or `"\n"`; a lone `'\r'` is an ordinary character. -/
def splitLinesAux : List Char → List Char → List (List Char)
  | [], acc => [acc.reverse]
  | '\r' :: '\n' :: rest, acc => acc.reverse :: splitLinesAux rest []
  | c :: rest, acc =>
    if c = '\n' then acc.reverse :: splitLinesAux rest []
    else splitLinesAux rest (c :: acc)

/-- JS `text.split(/\r?\n/)`. -/
def jsSplitLines (s : String) : List String :=
  (splitLinesAux s.data []).map String.mk

/-- The vocabulary built by `useRapidOCR`:
`setCharList(['blank', ...lines, ' '])`. -/
def loadCharList (text : String) : List String :=
  "blank" :: jsSplitLines text ++ [" "]

/-- Modelled from the spec: a newline-delimited text resource holding the
given symbols, one per line (the external dictionary file format of §6). -/
def joinLines : List String → String
  | [] => ""
  | [s] => s
  | s :: t :: rest => s ++ "\n" ++ joinLines (t :: rest)

/-! ## Image normalizer (`processImage`, pre-processing step)

Pixel bytes are modelled as `ℕ → ℕ` (byte offset to 8-bit value) and the
float tensor as `ℕ → ℚ`. -/

/-- `(pixel / 255 - 0.5) / 0.5`, the per-channel normalization. -/
def normalizePixel (p : ℕ) : ℚ := ((p : ℚ) / 255 - 0.5) / 0.5

/-- The resized width of `processImage`:
`Math.ceil(48 * (width / height))` clamped to at most 320. -/
def resizedWidth (w h : ℕ) : ℤ :=
  if ⌈(48 : ℚ) * ((w : ℚ) / (h : ℚ))⌉ > 320 then 320
  else ⌈(48 : ℚ) * ((w : ℚ) / (h : ℚ))⌉

/-- The RGBA byte array of the 320x48 canvas after the black `fillRect` and
the `drawImage` of the source image into columns `[0, resizedWidth)`: inside
those columns the bytes come from the rendered image (opaque to this model),
outside they are the opaque black fill `(0, 0, 0, 255)`. -/
def canvasPixels (rw0 : ℤ) (imgPix : ℕ → ℕ) (off : ℕ) : ℕ :=
  if ((off / 4 % 320 : ℕ) : ℤ) < rw0 then imgPix off
  else if off % 4 = 3 then 255 else 0

/-- The final contents of the `Float32Array(3 * 48 * 320)` filled by the
normalization loop: for `i < 48 * 320`, position `i` holds the normalized R
byte `pixels[4i]`, position `i + 48*320` the G byte `pixels[4i+1]`, and
position `i + 2*48*320` the B byte `pixels[4i+2]`. -/
def float32Data (pixels : ℕ → ℕ) (idx : ℕ) : ℚ :=
  if idx < 48 * 320 then normalizePixel (pixels (4 * idx))
  else if idx < 2 * (48 * 320) then normalizePixel (pixels (4 * (idx - 48 * 320) + 1))
  else if idx < 3 * (48 * 320) then normalizePixel (pixels (4 * (idx - 2 * (48 * 320)) + 2))
  else 0

/-! ## Pipeline state (`useRapidOCR` and `processImage`) -/

/-- An input raster image: dimensions plus the rendered RGBA bytes it
contributes to the canvas columns `[0, resizedWidth)`. -/
structure InputImage where
  width : ℕ
  height : ℕ
  pix : ℕ → ℕ

/-- The normalized input tensor built by `processImage` for an image. -/
def makeTensor (img : InputImage) : ℕ → ℚ :=
  float32Data (canvasPixels (resizedWidth img.width img.height) img.pix)

/-- The hook state of `useRapidOCR`: `session`, `charList`, `isLoading`,
`error`.  The inference session is a black box from tensor to score
matrix. -/
structure OCRState where
  session : Option ((ℕ → ℚ) → List (List ℚ))
  charList : List String
  isLoading : Bool
  error : Option String

/-- The `useState` initial values of `useRapidOCR`. -/
def initialState : OCRState :=
  { session := none, charList := [], isLoading := true, error := none }

/-- The state after the `init` effect ran: the dictionary fetch result and
the model load result each either succeed or fail; a failure is caught and
recorded in `error` (the dictionary is fetched first, so a dictionary
failure aborts before the model load; a model failure leaves the already
set `charList` in place). -/
def initState (dictResult : Except String String)
    (modelResult : Except String ((ℕ → ℚ) → List (List ℚ))) : OCRState :=
  match dictResult with
  | Except.error msg =>
    { initialState with isLoading := false, error := some msg }
  | Except.ok text =>
    match modelResult with
    | Except.error msg =>
      { initialState with
          charList := loadCharList text
          isLoading := false
          error := some msg }
    | Except.ok sess =>
      { session := some sess
        charList := loadCharList text
        isLoading := false
        error := none }

/-- `processImage`: `if (!session) throw new Error("Model not loaded")`,
otherwise normalize, run inference, and CTC-decode. -/
def processImage (st : OCRState) (img : InputImage) : Except String String :=
  match st.session with
  | none => Except.error "Model not loaded"
  | some run => Except.ok (ctcDecode st.charList (run (makeTensor img)))

/-! ## Spec-side two-phase collapse (for the refinement statement of C1) -/

/-- Phase 1 of the spec's collapse: run-length collapse of consecutive
duplicates ("drop any index equal to its immediate predecessor"). -/
def runCollapse : List ℕ → List ℕ
  | [] => []
  | [x] => [x]
  | x :: y :: rest =>
    if x = y then runCollapse (y :: rest) else x :: runCollapse (y :: rest)

/-- Phase 2 of the spec's collapse: drop any remaining blank (index 0). -/
def blankStrip (l : List ℕ) : List ℕ := l.filter (fun x => x ≠ 0)

/-! ## Vocabulary loading lemmas -/

theorem data_append (s t : String) : (s ++ t).data = s.data ++ t.data := by
  cases s; cases t; rfl

theorem data_newline : ("\n" : String).data = ['\n'] := by decide

theorem splitLinesAux_sep (rest acc : List Char) :
    splitLinesAux ('\n' :: rest) acc = acc.reverse :: splitLinesAux rest [] := by
  rfl

theorem splitLinesAux_plain (c : Char) (rest acc : List Char)
    (hcn : c ≠ '\n') (hcr : c ≠ '\r') :
    splitLinesAux (c :: rest) acc = splitLinesAux rest (c :: acc) := by
  cases rest with
  | nil => simp [splitLinesAux, hcn, hcr]
  | cons d rest2 => simp [splitLinesAux, hcn, hcr]

theorem splitLinesAux_no_break (cs : List Char) : ∀ acc : List Char,
    '\n' ∉ cs → '\r' ∉ cs → splitLinesAux cs acc = [acc.reverse ++ cs] := by
  induction cs with
  | nil => intro acc _ _; simp [splitLinesAux]
  | cons c rest ih =>
    intro acc hn hr
    have hcn : c ≠ '\n' := fun h => hn (h ▸ List.mem_cons_self c rest)
    have hcr : c ≠ '\r' := fun h => hr (h ▸ List.mem_cons_self c rest)
    rw [splitLinesAux_plain c rest acc hcn hcr]
    rw [ih (c :: acc) (fun h => hn (List.mem_cons_of_mem c h))
      (fun h => hr (List.mem_cons_of_mem c h))]
    simp

theorem splitLinesAux_break (cs : List Char) : ∀ (tailcs : List Char) (acc : List Char),
    '\n' ∉ cs → '\r' ∉ cs →
    splitLinesAux (cs ++ '\n' :: tailcs) acc
      = (acc.reverse ++ cs) :: splitLinesAux tailcs [] := by
  induction cs with
  | nil =>
    intro tailcs acc _ _
    rw [List.nil_append, splitLinesAux_sep]
    simp
  | cons c rest ih =>
    intro tailcs acc hn hr
    have hcn : c ≠ '\n' := fun h => hn (h ▸ List.mem_cons_self c rest)
    have hcr : c ≠ '\r' := fun h => hr (h ▸ List.mem_cons_self c rest)
    rw [List.cons_append, splitLinesAux_plain c _ acc hcn hcr]
    rw [ih tailcs (c :: acc) (fun h => hn (List.mem_cons_of_mem c h))
      (fun h => hr (List.mem_cons_of_mem c h))]
    simp

theorem jsSplitLines_joinLines (symbols : List String) (hne : symbols ≠ [])
    (hclean : ∀ s ∈ symbols, '\n' ∉ s.data ∧ '\r' ∉ s.data) :
    jsSplitLines (joinLines symbols) = symbols := by
  induction symbols with
  | nil => exact absurd rfl hne
  | cons s rest ih =>
    cases rest with
    | nil =>
      have hs := hclean s (List.mem_cons_self s [])
      unfold jsSplitLines joinLines
      rw [splitLinesAux_no_break s.data [] hs.1 hs.2]
      simp
    | cons t rest2 =>
      have hs := hclean s (List.mem_cons_self s (t :: rest2))
      have hdata : (joinLines (s :: t :: rest2)).data
          = s.data ++ '\n' :: (joinLines (t :: rest2)).data := by
        show (s ++ "\n" ++ joinLines (t :: rest2)).data = _
        rw [data_append, data_append, data_newline]
        simp
      unfold jsSplitLines
      rw [hdata, splitLinesAux_break s.data _ [] hs.1 hs.2]
      simp only [List.map_cons, List.reverse_nil, List.nil_append]
      have ih2 := ih (by simp) (fun u hu => hclean u (List.mem_cons_of_mem s hu))
      unfold jsSplitLines at ih2
      rw [ih2]

/-! ## Argmax lemmas -/

/-- `argmaxAux` once the best value is a real score: carries best value,
best index, next index. -/
def amax : List ℚ → ℚ → ℕ → ℕ → ℕ
  | [], _, j, _ => j
  | v :: rest, b, j, i => if b < v then amax rest v i (i + 1) else amax rest b j (i + 1)

theorem argmaxAux_eq_amax (data : List ℚ) : ∀ (b : ℚ) (j i : ℕ),
    argmaxAux data (some b) j i = amax data b j i := by
  induction data with
  | nil => intro b j i; rfl
  | cons v rest ih =>
    intro b j i
    by_cases h : b < v
    · simp [argmaxAux, amax, jsGt, h, ih]
    · simp [argmaxAux, amax, jsGt, h, ih]

theorem argmax_cons (v : ℚ) (rest : List ℚ) :
    argmax (v :: rest) = amax rest v 0 1 := by
  simp [argmax, argmaxAux, jsGt, argmaxAux_eq_amax]

/-- Either the starting best index survives the scan (everything is at most
the starting best value), or the scan returns the position of a strictly
larger value that is maximal and strictly above everything before it. -/
theorem amax_spec (data : List ℚ) : ∀ (b : ℚ) (j i : ℕ),
    (amax data b j i = j ∧ ∀ m < data.length, data.getD m 0 ≤ b) ∨
    (∃ k, k < data.length ∧ amax data b j i = i + k ∧ b < data.getD k 0 ∧
      (∀ m < data.length, data.getD m 0 ≤ data.getD k 0) ∧
      (∀ m < k, data.getD m 0 < data.getD k 0)) := by
  induction data with
  | nil =>
    intro b j i
    left
    exact ⟨rfl, fun m hm => absurd hm (by simp)⟩
  | cons v rest ih =>
    intro b j i
    by_cases hbv : b < v
    · rw [show amax (v :: rest) b j i = amax rest v i (i + 1) by simp [amax, hbv]]
      rcases ih v i (i + 1) with ⟨heq, hall⟩ | ⟨k, hk, heq, hlt, hmax, hstrict⟩
      · right
        refine ⟨0, by simp, by omega, by simpa using hbv, ?_, ?_⟩
        · intro m hm
          cases m with
          | zero => simp
          | succ m' =>
            simp only [List.getD_cons_succ, List.getD_cons_zero]
            exact hall m' (by simpa using hm)
        · intro m hm; omega
      · right
        refine ⟨k + 1, by simpa using hk, by omega, ?_, ?_, ?_⟩
        · simpa using lt_trans hbv hlt
        · intro m hm
          cases m with
          | zero => simpa using le_of_lt hlt
          | succ m' =>
            simp only [List.getD_cons_succ]
            exact hmax m' (by simpa using hm)
        · intro m hm
          cases m with
          | zero => simpa using hlt
          | succ m' =>
            simp only [List.getD_cons_succ]
            exact hstrict m' (by omega)
    · rw [show amax (v :: rest) b j i = amax rest b j (i + 1) by simp [amax, hbv]]
      rcases ih b j (i + 1) with ⟨heq, hall⟩ | ⟨k, hk, heq, hlt, hmax, hstrict⟩
      · left
        refine ⟨heq, ?_⟩
        intro m hm
        cases m with
        | zero => simpa using le_of_not_lt hbv
        | succ m' =>
          simp only [List.getD_cons_succ]
          exact hall m' (by simpa using hm)
      · right
        refine ⟨k + 1, by simpa using hk, by omega, ?_, ?_, ?_⟩
        · simpa using hlt
        · intro m hm
          cases m with
          | zero =>
            simp only [List.getD_cons_succ, List.getD_cons_zero]
            exact le_trans (le_of_not_lt hbv) (le_of_lt hlt)
          | succ m' =>
            simp only [List.getD_cons_succ]
            exact hmax m' (by simpa using hm)
        · intro m hm
          cases m with
          | zero =>
            simp only [List.getD_cons_succ, List.getD_cons_zero]
            exact lt_of_le_of_lt (le_of_not_lt hbv) hlt
          | succ m' =>
            simp only [List.getD_cons_succ]
            exact hstrict m' (by omega)

/-- The argmax of a nonempty row is a valid index attaining the maximum, and
every earlier index holds a strictly smaller value (ties break low). -/
theorem argmax_spec (row : List ℚ) (hrow : 0 < row.length) :
    argmax row < row.length ∧
    (∀ k < row.length, row.getD k 0 ≤ row.getD (argmax row) 0) ∧
    (∀ k < argmax row, row.getD k 0 < row.getD (argmax row) 0) := by
  cases row with
  | nil => simp at hrow
  | cons v rest =>
    rw [argmax_cons]
    rcases amax_spec rest v 0 1 with ⟨heq, hall⟩ | ⟨k, hk, heq, hlt, hmax, hstrict⟩
    · rw [heq]
      refine ⟨by simp, ?_, ?_⟩
      · intro m hm
        cases m with
        | zero => simp
        | succ m' =>
          simp only [List.getD_cons_succ, List.getD_cons_zero]
          exact hall m' (by simpa using hm)
      · intro m hm; omega
    · rw [heq]
      have hres : 1 + k = k + 1 := by omega
      rw [hres]
      refine ⟨by simpa using hk, ?_, ?_⟩
      · intro m hm
        cases m with
        | zero => simpa using le_of_lt hlt
        | succ m' =>
          simp only [List.getD_cons_succ]
          exact hmax m' (by simpa using hm)
      · intro m hm
        cases m with
        | zero => simpa using hlt
        | succ m' =>
          simp only [List.getD_cons_succ]
          exact hstrict m' (by omega)

/-! ## Collapse lemmas -/

theorem blankStrip_cons (x : ℕ) (l : List ℕ) :
    blankStrip (x :: l) = if x ≠ 0 then x :: blankStrip l else blankStrip l := by
  simp [blankStrip, List.filter_cons]

theorem runCollapse_head (x : ℕ) (l : List ℕ) :
    runCollapse (x :: l) = x :: (runCollapse (x :: l)).tail := by
  induction l generalizing x with
  | nil => rfl
  | cons y rest ih =>
    by_cases h : x = y
    · subst h
      rw [show runCollapse (x :: x :: rest) = runCollapse (x :: rest) by
        simp [runCollapse]]
      exact ih x
    · simp [runCollapse, h]

theorem collapseAux_some (l : List ℕ) : ∀ p : ℕ,
    collapseAux (some p) l = blankStrip ((runCollapse (p :: l)).tail) := by
  induction l with
  | nil => intro p; rfl
  | cons x rest ih =>
    intro p
    by_cases h : x = p
    · subst h
      rw [show collapseAux (some x) (x :: rest) = collapseAux (some x) rest by
        simp [collapseAux]]
      rw [show runCollapse (x :: x :: rest) = runCollapse (x :: rest) by
        simp [runCollapse]]
      exact ih x
    · have h1 : runCollapse (p :: x :: rest) = p :: runCollapse (x :: rest) := by
        simp [runCollapse]; intro hpx; exact absurd hpx.symm h
      rw [h1]
      simp only [List.tail_cons]
      rw [runCollapse_head x rest, blankStrip_cons]
      rw [show collapseAux (some p) (x :: rest)
          = if x ≠ 0 then x :: collapseAux (some x) rest else collapseAux (some x) rest by
        simp [collapseAux, h]]
      rw [ih x]

theorem ctcCollapse_eq_two_phase (l : List ℕ) :
    ctcCollapse l = blankStrip (runCollapse l) := by
  cases l with
  | nil => rfl
  | cons x rest =>
    show collapseAux none (x :: rest) = _
    rw [show collapseAux none (x :: rest)
        = if x ≠ 0 then x :: collapseAux (some x) rest else collapseAux (some x) rest by
      simp [collapseAux]]
    rw [collapseAux_some rest x, runCollapse_head x rest, blankStrip_cons]
    simp only [List.tail_cons]

end RapidOCR

namespace RapidOCR

/-- C2: loading a newline-delimited dictionary of symbols yields the
vocabulary with the blank marker at index 0, the symbols at indices 1..N in
order with nothing interleaved, and exactly one trailing space symbol as the
last index. -/
theorem loadCharList_spec (symbols : List String) (hne : symbols ≠ [])
    (hclean : ∀ s ∈ symbols, '\n' ∉ s.data ∧ '\r' ∉ s.data) :
    loadCharList (joinLines symbols) = "blank" :: symbols ++ [" "] := by
  unfold loadCharList
  rw [jsSplitLines_joinLines symbols hne hclean]

/-- Witness for C2 on the two-symbol dictionary "A\nB". -/
theorem loadCharList_spec_witness :
    ((["A", "B"] : List String) ≠ [] ∧
      ∀ s ∈ (["A", "B"] : List String), '\n' ∉ s.data ∧ '\r' ∉ s.data) ∧
    loadCharList (joinLines ["A", "B"]) = "blank" :: ["A", "B"] ++ [" "] :=
  ⟨⟨by decide, by decide⟩, loadCharList_spec ["A", "B"] (by decide) (by decide)⟩

theorem rawIndices_getD (scores : List (List ℚ)) : ∀ t < scores.length,
    (rawIndices scores).getD t 0 = argmax (scores.getD t []) := by
  induction scores with
  | nil => intro t ht; simp at ht
  | cons row rest ih =>
    intro t ht
    cases t with
    | zero => rfl
    | succ t' =>
      simp only [rawIndices, List.map_cons, List.getD_cons_succ]
      exact ih t' (by simpa using ht)

theorem scores_getD_mem (scores : List (List ℚ)) : ∀ t < scores.length,
    scores.getD t [] ∈ scores := by
  induction scores with
  | nil => intro t ht; simp at ht
  | cons row rest ih =>
    intro t ht
    cases t with
    | zero => simp
    | succ t' =>
      simp only [List.getD_cons_succ]
      exact List.mem_cons_of_mem _ (ih t' (by simpa using ht))

/-- C3: on a score matrix of shape (T, V), the argmax step picks, at each
timestep, the index of the maximum score, ties broken by the lowest index
(strict `>` left-to-right scan), and the raw index sequence has length T. -/
theorem ctc_argmax_raw_sequence (scores : List (List ℚ)) (V : ℕ) (hV : 0 < V)
    (hshape : ∀ row ∈ scores, row.length = V) :
    (rawIndices scores).length = scores.length ∧
    ∀ t < scores.length,
      (rawIndices scores).getD t 0 < V ∧
      (∀ k < V, (scores.getD t []).getD k 0
        ≤ (scores.getD t []).getD ((rawIndices scores).getD t 0) 0) ∧
      (∀ k < (rawIndices scores).getD t 0,
        (scores.getD t []).getD k 0
          < (scores.getD t []).getD ((rawIndices scores).getD t 0) 0) := by
  refine ⟨by simp [rawIndices], ?_⟩
  intro t ht
  have hlen : (scores.getD t []).length = V := hshape _ (scores_getD_mem scores t ht)
  have hpos : 0 < (scores.getD t []).length := by omega
  have hspec := argmax_spec (scores.getD t []) hpos
  rw [rawIndices_getD scores t ht]
  rw [hlen] at hspec
  exact hspec

/-- Witness for C3 on a concrete 2 x 3 score matrix. -/
theorem ctc_argmax_raw_sequence_witness :
    ((0 : ℕ) < 3 ∧ ∀ row ∈ [[(1 : ℚ), 3, 3], [2, 2, 1]], row.length = 3) ∧
    ((rawIndices [[(1 : ℚ), 3, 3], [2, 2, 1]]).length
        = ([[(1 : ℚ), 3, 3], [2, 2, 1]] : List (List ℚ)).length ∧
      ∀ t < ([[(1 : ℚ), 3, 3], [2, 2, 1]] : List (List ℚ)).length,
        (rawIndices [[(1 : ℚ), 3, 3], [2, 2, 1]]).getD t 0 < 3 ∧
        (∀ k < 3, (([[(1 : ℚ), 3, 3], [2, 2, 1]] : List (List ℚ)).getD t []).getD k 0
          ≤ (([[(1 : ℚ), 3, 3], [2, 2, 1]] : List (List ℚ)).getD t []).getD
              ((rawIndices [[(1 : ℚ), 3, 3], [2, 2, 1]]).getD t 0) 0) ∧
        (∀ k < (rawIndices [[(1 : ℚ), 3, 3], [2, 2, 1]]).getD t 0,
          (([[(1 : ℚ), 3, 3], [2, 2, 1]] : List (List ℚ)).getD t []).getD k 0
            < (([[(1 : ℚ), 3, 3], [2, 2, 1]] : List (List ℚ)).getD t []).getD
                ((rawIndices [[(1 : ℚ), 3, 3], [2, 2, 1]]).getD t 0) 0)) :=
  ⟨⟨by decide, by decide⟩,
    ctc_argmax_raw_sequence [[(1 : ℚ), 3, 3], [2, 2, 1]] 3 (by decide) (by decide)⟩

/-- C1: the decoder collapse is a single left-to-right pass equal to first
dropping indices equal to their immediate predecessor and then dropping the
remaining zeros (blanks); indices are not collapsed across a blank: with
vocabulary index 5 mapped to "A", the raw sequence `[0,0,5,5,0,5,0]` decodes
to "AA", and `[5,0,5]` decodes to "AA", not "A". -/
theorem ctc_collapse_single_pass :
    (∀ pred : List ℕ, ctcCollapse pred = blankStrip (runCollapse pred)) ∧
    ctcDecodeIndices ["blank", "b", "c", "d", "e", "A"] [0, 0, 5, 5, 0, 5, 0] = "AA" ∧
    ctcDecodeIndices ["blank", "b", "c", "d", "e", "A"] [5, 0, 5] = "AA" :=
  ⟨ctcCollapse_eq_two_phase, by decide, by decide⟩

/-- C7: the symbol-mapping step of the decoder is total; an index outside the
valid vocabulary range (negative or at least the vocabulary length)
contributes the empty string, never an error. -/
theorem mapIdx_out_of_range (charList : List String) (idx : ℤ)
    (h : idx < 0 ∨ (charList.length : ℤ) ≤ idx) :
    mapIdx charList idx = "" := by
  simp only [mapIdx, if_pos h]

/-- Witness for C7 at a concrete out-of-range index. -/
theorem mapIdx_out_of_range_witness :
    (((-1 : ℤ) < 0 ∨ ((["blank", "A"].length : ℤ) ≤ -1)) ∧
      mapIdx ["blank", "A"] (-1) = "") ∧
    (((5 : ℤ) < 0 ∨ ((["blank", "A"].length : ℤ) ≤ 5)) ∧
      mapIdx ["blank", "A"] 5 = "") :=
  ⟨⟨Or.inl (by decide), mapIdx_out_of_range ["blank", "A"] (-1) (Or.inl (by decide))⟩,
   ⟨Or.inr (by decide), mapIdx_out_of_range ["blank", "A"] 5 (Or.inr (by decide))⟩⟩

/-- C4: the target height is fixed at 48 and the target width is
`ceil(48 * (w/h))` clamped to a maximum of 320; whenever `w/h > 320/48`
the target width is exactly 320. -/
theorem resizedWidth_spec (w h : ℕ) (hh : 0 < h) :
    resizedWidth w h = min ⌈(48 : ℚ) * ((w : ℚ) / (h : ℚ))⌉ 320 ∧
    ((320 : ℚ) / 48 < (w : ℚ) / (h : ℚ) → resizedWidth w h = 320) := by
  constructor
  · unfold resizedWidth
    split <;> omega
  · intro hlt
    have h48 : (0 : ℚ) < 48 := by norm_num
    have h320 : (320 : ℚ) < 48 * ((w : ℚ) / (h : ℚ)) := by
      have := mul_lt_mul_of_pos_left hlt h48
      have h0 : (48 : ℚ) * ((320 : ℚ) / 48) = 320 := by norm_num
      linarith
    have hceil : (320 : ℤ) < ⌈(48 : ℚ) * ((w : ℚ) / (h : ℚ))⌉ := by
      rw [Int.lt_ceil]
      push_cast
      linarith
    unfold resizedWidth
    rw [if_pos (by omega)]

/-- Witness for C4 at a 640 x 48 image (ratio above 320/48). -/
theorem resizedWidth_spec_witness :
    0 < 48 ∧
    (resizedWidth 640 48 = min ⌈(48 : ℚ) * (((640 : ℕ) : ℚ) / ((48 : ℕ) : ℚ))⌉ 320 ∧
      ((320 : ℚ) / 48 < ((640 : ℕ) : ℚ) / ((48 : ℕ) : ℚ) → resizedWidth 640 48 = 320)) :=
  ⟨by decide, resizedWidth_spec 640 48 (by decide)⟩

theorem canvasPixels_padding (rw0 : ℤ) (imgPix : ℕ → ℕ) (off : ℕ)
    (hcond : rw0 ≤ ((off / 4 % 320 : ℕ) : ℤ)) (hmod : off % 4 ≠ 3) :
    canvasPixels rw0 imgPix off = 0 := by
  unfold canvasPixels
  rw [if_neg (by omega), if_neg hmod]

theorem normalizePixel_zero : normalizePixel 0 = -1 := by
  norm_num [normalizePixel]

/-- C5: for an image with `w/h <= 320/48`, every tensor entry in column
range `[ceil(48*w/h), 320)` of every channel holds the black-mapped value
`-1`. -/
theorem padding_columns_black (w h : ℕ) (imgPix : ℕ → ℕ) (c y x : ℕ) (hh : 0 < h)
    (hratio : (w : ℚ) / (h : ℚ) ≤ (320 : ℚ) / 48)
    (hc : c < 3) (hy : y < 48) (hx : x < 320)
    (hxlo : ⌈(48 : ℚ) * ((w : ℚ) / (h : ℚ))⌉ ≤ (x : ℤ)) :
    float32Data (canvasPixels (resizedWidth w h) imgPix)
      (c * (48 * 320) + y * 320 + x) = -1 := by
  have h48 : (0 : ℚ) < 48 := by norm_num
  have hle : (48 : ℚ) * ((w : ℚ) / (h : ℚ)) ≤ 320 := by
    have := mul_le_mul_of_nonneg_left hratio (le_of_lt h48)
    have h0 : (48 : ℚ) * ((320 : ℚ) / 48) = 320 := by norm_num
    linarith
  have hceil : ⌈(48 : ℚ) * ((w : ℚ) / (h : ℚ))⌉ ≤ 320 := by
    rw [Int.ceil_le]
    push_cast
    linarith
  have hrw : resizedWidth w h = ⌈(48 : ℚ) * ((w : ℚ) / (h : ℚ))⌉ := by
    unfold resizedWidth
    rw [if_neg (by omega)]
  interval_cases c
  · unfold float32Data
    rw [if_pos (by omega)]
    rw [canvasPixels_padding _ _ _
      (by rw [hrw, show (4 * (0 * (48 * 320) + y * 320 + x)) / 4 % 320 = x by omega]
          exact hxlo)
      (by omega)]
    exact normalizePixel_zero
  · unfold float32Data
    rw [if_neg (by omega), if_pos (by omega)]
    rw [canvasPixels_padding _ _ _
      (by rw [hrw,
            show (4 * ((1 * (48 * 320) + y * 320 + x) - 48 * 320) + 1) / 4 % 320 = x by omega]
          exact hxlo)
      (by omega)]
    exact normalizePixel_zero
  · unfold float32Data
    rw [if_neg (by omega), if_neg (by omega), if_pos (by omega)]
    rw [canvasPixels_padding _ _ _
      (by rw [hrw,
            show (4 * ((2 * (48 * 320) + y * 320 + x) - 2 * (48 * 320)) + 2) / 4 % 320 = x
              by omega]
          exact hxlo)
      (by omega)]
    exact normalizePixel_zero

/-- Witness for C5 at a 160 x 48 image, channel 0, row 0, column 319. -/
theorem padding_columns_black_witness :
    (0 < 48 ∧ ((160 : ℕ) : ℚ) / ((48 : ℕ) : ℚ) ≤ (320 : ℚ) / 48 ∧
      0 < 3 ∧ 0 < 48 ∧ 319 < 320 ∧
      ⌈(48 : ℚ) * (((160 : ℕ) : ℚ) / ((48 : ℕ) : ℚ))⌉ ≤ ((319 : ℕ) : ℤ)) ∧
    float32Data (canvasPixels (resizedWidth 160 48) (fun _ => 17))
      (0 * (48 * 320) + 0 * 320 + 319) = -1 := by
  have hceq : (48 : ℚ) * (((160 : ℕ) : ℚ) / ((48 : ℕ) : ℚ)) = ((160 : ℤ) : ℚ) := by
    push_cast
    ring_nf
  have hxlo : ⌈(48 : ℚ) * (((160 : ℕ) : ℚ) / ((48 : ℕ) : ℚ))⌉ ≤ ((319 : ℕ) : ℤ) := by
    rw [hceq, Int.ceil_intCast]
    decide
  have hratio : ((160 : ℕ) : ℚ) / ((48 : ℕ) : ℚ) ≤ (320 : ℚ) / 48 := by
    push_cast
    norm_num
  exact ⟨⟨by decide, hratio, by decide, by decide, by decide, hxlo⟩,
    padding_columns_black 160 48 (fun _ => 17) 0 0 319 (by decide) hratio
      (by decide) (by decide) (by decide) hxlo⟩

/-- C6: each 8-bit value `p` maps to `(p/255 - 0.5)/0.5`, which lies in
`[-1, 1]`, and the tensor is channel-major: the entry for channel `c`,
row `y`, column `x` sits at `c*48*320 + y*320 + x` and holds the normalized
byte at RGBA offset `4*(y*320 + x) + c`. -/
theorem tensor_value_layout (p c y x : ℕ) (pixels : ℕ → ℕ)
    (hp : p ≤ 255) (hc : c < 3) (hy : y < 48) (hx : x < 320) :
    (-1 ≤ normalizePixel p ∧ normalizePixel p ≤ 1) ∧
    float32Data pixels (c * (48 * 320) + y * 320 + x)
      = normalizePixel (pixels (4 * (y * 320 + x) + c)) := by
  have hval : normalizePixel p = 2 * (p : ℚ) / 255 - 1 := by
    unfold normalizePixel
    ring
  have hp2 : (p : ℚ) ≤ 255 := by exact_mod_cast hp
  have h0 : (0 : ℚ) ≤ (p : ℚ) := Nat.cast_nonneg p
  refine ⟨⟨?_, ?_⟩, ?_⟩
  · rw [hval]
    have : (0 : ℚ) ≤ 2 * (p : ℚ) / 255 := by positivity
    linarith
  · rw [hval]
    have : 2 * (p : ℚ) / 255 ≤ 2 := by
      rw [div_le_iff₀ (by norm_num)]
      linarith
    linarith
  · interval_cases c
    · unfold float32Data
      rw [if_pos (by omega)]
      rw [show 0 * (48 * 320) + y * 320 + x = y * 320 + x by omega]
      norm_num
    · unfold float32Data
      rw [if_neg (by omega), if_pos (by omega)]
      rw [show 1 * (48 * 320) + y * 320 + x - 48 * 320 = y * 320 + x by omega]
    · unfold float32Data
      rw [if_neg (by omega), if_neg (by omega), if_pos (by omega)]
      rw [show 2 * (48 * 320) + y * 320 + x - 2 * (48 * 320) = y * 320 + x by omega]

/-- Witness for C6 at byte value 255, channel 2, row 47, column 319. -/
theorem tensor_value_layout_witness :
    (255 ≤ 255 ∧ 2 < 3 ∧ 47 < 48 ∧ 319 < 320) ∧
    ((-1 ≤ normalizePixel 255 ∧ normalizePixel 255 ≤ 1) ∧
      float32Data (fun n => n % 256) (2 * (48 * 320) + 47 * 320 + 319)
        = normalizePixel ((fun n => n % 256) (4 * (47 * 320 + 319) + 2))) :=
  ⟨⟨by decide, by decide, by decide, by decide⟩,
    tensor_value_layout 255 2 47 319 (fun n => n % 256)
      (by decide) (by decide) (by decide) (by decide)⟩

/-- C10: the tensor depends only on the R, G and B bytes of the pixel
array: two pixel arrays agreeing at offsets `4i`, `4i+1`, `4i+2` for all
`i < 48*320` produce identical tensors; the alpha byte at `4i+3` is never
read. -/
theorem tensor_ignores_alpha (p1 p2 : ℕ → ℕ)
    (hagree : ∀ i < 48 * 320, p1 (4 * i) = p2 (4 * i) ∧
      p1 (4 * i + 1) = p2 (4 * i + 1) ∧ p1 (4 * i + 2) = p2 (4 * i + 2)) :
    ∀ idx, float32Data p1 idx = float32Data p2 idx := by
  intro idx
  unfold float32Data
  split_ifs with h1 h2 h3
  · rw [(hagree idx h1).1]
  · rw [(hagree (idx - 48 * 320) (by omega)).2.1]
  · rw [(hagree (idx - 2 * (48 * 320)) (by omega)).2.2]
  · rfl

/-- Witness for C10: the all-zero array against one that differs exactly
in the alpha bytes. -/
theorem tensor_ignores_alpha_witness :
    (∀ i < 48 * 320,
      (fun _ => 0 : ℕ → ℕ) (4 * i)
        = (fun n => if n % 4 = 3 then 9 else 0 : ℕ → ℕ) (4 * i) ∧
      (fun _ => 0 : ℕ → ℕ) (4 * i + 1)
        = (fun n => if n % 4 = 3 then 9 else 0 : ℕ → ℕ) (4 * i + 1) ∧
      (fun _ => 0 : ℕ → ℕ) (4 * i + 2)
        = (fun n => if n % 4 = 3 then 9 else 0 : ℕ → ℕ) (4 * i + 2)) ∧
    (fun _ => 0 : ℕ → ℕ) 3 ≠ (fun n => if n % 4 = 3 then 9 else 0 : ℕ → ℕ) 3 ∧
    float32Data (fun _ => 0) 3 = float32Data (fun n => if n % 4 = 3 then 9 else 0) 3 := by
  have hagree : ∀ i < 48 * 320,
      (fun _ => 0 : ℕ → ℕ) (4 * i)
        = (fun n => if n % 4 = 3 then 9 else 0 : ℕ → ℕ) (4 * i) ∧
      (fun _ => 0 : ℕ → ℕ) (4 * i + 1)
        = (fun n => if n % 4 = 3 then 9 else 0 : ℕ → ℕ) (4 * i + 1) ∧
      (fun _ => 0 : ℕ → ℕ) (4 * i + 2)
        = (fun n => if n % 4 = 3 then 9 else 0 : ℕ → ℕ) (4 * i + 2) := by
    intro i _
    refine ⟨?_, ?_, ?_⟩ <;> simp only [] <;> rw [if_neg (by omega)]
  exact ⟨hagree, by simp, tensor_ignores_alpha _ _ hagree 3⟩

/-- C8: a `recognize` (`processImage`) call on a pipeline whose model has
not finished loading (no session) fails with the not-loaded error, for every
image, with no tensor work performed. -/
theorem processImage_not_ready (st : OCRState) (img : InputImage)
    (h : st.session = none) :
    processImage st img = Except.error "Model not loaded" := by
  unfold processImage
  rw [h]

/-- Witness for C8 at the initial (still loading) state. -/
theorem processImage_not_ready_witness :
    initialState.session = none ∧
    processImage initialState ⟨1, 1, fun _ => 0⟩ = Except.error "Model not loaded" :=
  ⟨rfl, processImage_not_ready initialState ⟨1, 1, fun _ => 0⟩ rfl⟩

/-- C9 counterexample: when the model load fails with message "load failed",
the failed state records that message, but a subsequent `processImage` call
fails with the generic "Model not loaded" error, not with the recorded
load error — contradicting the claim that every subsequent recognize call
fails with that same `ResourceLoadError`. -/
theorem processImage_after_failed_load_counterexample :
    (initState (Except.ok "A\nB") (Except.error "load failed")).error
      = some "load failed" ∧
    processImage (initState (Except.ok "A\nB") (Except.error "load failed"))
        ⟨1, 1, fun _ => 0⟩
      = Except.error "Model not loaded" ∧
    processImage (initState (Except.ok "A\nB") (Except.error "load failed"))
        ⟨1, 1, fun _ => 0⟩
      ≠ Except.error "load failed" := by
  refine ⟨rfl, rfl, ?_⟩
  intro hcontra
  rw [show processImage (initState (Except.ok "A\nB") (Except.error "load failed"))
      ⟨1, 1, fun _ => 0⟩ = Except.error "Model not loaded" from rfl] at hcontra
  simp at hcontra

/-- C9 amended: if the vocabulary or the model load fails at startup, the
pipeline transitions to the failed state (loading cleared, the load error
message recorded, no session) and performs no automatic retry; every
subsequent recognize call fails fast, but with the generic "Model not
loaded" error, not with the recorded load error. -/
theorem failed_load_state_spec (text msg : String)
    (sess : (ℕ → ℚ) → List (List ℚ)) (img : InputImage) :
    ((initState (Except.ok text) (Except.error msg)).isLoading = false ∧
      (initState (Except.ok text) (Except.error msg)).error = some msg ∧
      (initState (Except.ok text) (Except.error msg)).session = none ∧
      processImage (initState (Except.ok text) (Except.error msg)) img
        = Except.error "Model not loaded") ∧
    ((initState (Except.error msg) (Except.ok sess)).isLoading = false ∧
      (initState (Except.error msg) (Except.ok sess)).error = some msg ∧
      (initState (Except.error msg) (Except.ok sess)).session = none ∧
      processImage (initState (Except.error msg) (Except.ok sess)) img
        = Except.error "Model not loaded") :=
  ⟨⟨rfl, rfl, rfl, rfl⟩, ⟨rfl, rfl, rfl, rfl⟩⟩

end RapidOCR
